import Mathlib

/-!
Verification of the streaming text-to-speech pipeline: the word chunker,
the character-alignment (resync) algorithm `get_remaining_chars_to_send`,
and the playback-process singleton, embedded shallowly from
`src/local/sandbox.py` (the server copy of the alignment routine in
`src/server/chatbot.py` is textually identical).

Python strings are modelled as `List Char`; the alignment routine, which
operates on Python lists of (usually single-character) strings, is
modelled on `List String`.  Raising an exception is modelled by
`Except.error`.
-/

set_option autoImplicit false

namespace TTS

/-! ### Character normalization table (`custom_decode` in the source) -/

/-- Embeds `custom_decode`: the fixed substitution table mapping
typographic punctuation and currency symbols to the plain-text strings
the provider is known to substitute; any other element is returned
unchanged. -/
def custom_decode (char : String) : String :=
  if char = "‘" then "\x27"
  else if char = "’" then "\x27"
  else if char = "“" then "\""
  else if char = "”" then "\""
  else if char = "–" then "-"
  else if char = "—" then "-"
  else if char = "…" then "..."
  else if char = "•" then "*"
  else if char = "£" then "GBP"
  else if char = "€" then "EUR"
  else if char = "×" then "x"
  else if char = "÷" then "/"
  else char

/-- The fixed displacement tolerance of the alignment scan. -/
def displacement_tolerance : Nat := 2

/-- Offset of the first occurrence of `char` in a list, or `none`. -/
def findFrom (char : String) : List String → Option Nat
  | [] => none
  | x :: xs => if x = char then some 0 else (findFrom char xs).map (· + 1)

/-- Embeds Python `list.index(char, j)`: the least index `k ≥ j` with
`recv[k] = char`, or `none` when no such index exists (the `ValueError`
branch of the source). -/
def findIdxFrom (recv : List String) (char : String) (j : Nat) : Option Nat :=
  match findFrom char (recv.drop j) with
  | none => none
  | some m => some (j + m)

/-- The message of the exception raised on an out-of-tolerance match. -/
def alignment_failure_msg : String :=
  "Could not confirm that the current char was received within the displacement tolerance."

/-- Embeds the `for i in range(len(chars_to_send_formatted))` loop of
`get_remaining_chars_to_send`.  The list being consumed is the suffix of
the formatted sent sequence from index `i` on; `orig` is the original,
non-normalized sent list, `recv` the stripped confirmed list, and `j`
the confirmed cursor.  `Except.error` embeds the `raise Exception`
branch (alignment failure); `Except.ok` the two `return` statements. -/
def alignLoop (orig recv : List String) : List String → Nat → Nat → Except String (List String)
  | [], _, _ => .ok []
  | char :: rest, i, j =>
    if char = "\n" then
      alignLoop orig recv rest (i + 1) j
    else if j < recv.length then
      match findIdxFrom recv char j with
      | some k =>
        if k = j then
          alignLoop orig recv rest (i + 1) (j + 1)
        else if k - j ≤ displacement_tolerance then
          alignLoop orig recv rest (i + 1) (k + 1)
        else
          .error alignment_failure_msg
      | none => .ok (orig.drop i)
    else .ok (orig.drop i)

/-- Embeds `get_remaining_chars_to_send(chars_to_send, chars_received)`:
normalize the sent list through `custom_decode`, strip the leading
artifact element of the received list, then run the alignment scan from
`i = 0`, `j = 0`. -/
def get_remaining_chars_to_send (chars_to_send chars_received : List String) : Except String (List String) :=
  let chars_to_send_formatted := chars_to_send.map custom_decode
  let chars_received_formatted := chars_received.drop 1
  alignLoop chars_to_send chars_received_formatted chars_to_send_formatted 0 0

/-- Converts a string to the list of its characters as one-character
strings, the shape in which text reaches the alignment routine. -/
def toCharStrings (s : String) : List String :=
  s.toList.map (fun c => String.mk [c])

/-! ### Word chunker (`text_chunker` in the source) -/

/-- Embeds the `for char in text` body of `text_chunker` on one input
fragment: a space emits the buffered word plus one trailing space (when
the buffer is non-empty); any other character is appended to the buffer.
Returns the final buffer together with the units emitted, in order. -/
def chunkStep (buffer : List Char) : List Char → List Char × List (List Char)
  | [] => (buffer, [])
  | c :: cs =>
    if c = ' ' then
      if buffer ≠ [] then
        let r := chunkStep [] cs
        (r.1, (buffer ++ [' ']) :: r.2)
      else
        chunkStep buffer cs
    else
      chunkStep (buffer ++ [c]) cs

/-- Embeds the outer `while True` loop of `text_chunker` over the queue
of fragments (the list before the `None` end marker), threading the
buffer; on end of input the non-empty buffer is flushed with a trailing
space and the `None` sentinel (modelled as `none`) is emitted last. -/
def text_chunker_go (buffer : List Char) : List (List Char) → List (Option (List Char))
  | [] => (if buffer ≠ [] then [some (buffer ++ [' '])] else []) ++ [none]
  | t :: ts =>
    let r := chunkStep buffer t
    r.2.map some ++ text_chunker_go r.1 ts

/-- Embeds `text_chunker`: the complete ordered output queue produced
from an input fragment sequence terminated by the `None` marker. -/
def text_chunker (fragments : List (List Char)) : List (Option (List Char)) :=
  text_chunker_go [] fragments

/-- Strips one trailing space from a unit, if present. -/
def stripOneTrailingSpace (u : List Char) : List Char :=
  if u.getLast? = some ' ' then u.dropLast else u

/-- Concatenation of a unit list with one trailing space stripped from
the last unit, the reading of the round-trip property in the spec. -/
def joinStripLast : List (List Char) → List Char
  | [] => []
  | [u] => stripOneTrailingSpace u
  | u :: v :: us => u ++ joinStripLast (v :: us)

/-- Input-shape guard for the chunker round trip: scanning left to
right, every space must arrive while the buffer is non-empty (no
leading space, no two adjacent spaces).  The flag records whether the
buffer is currently non-empty. -/
def spacesOk (bufNonempty : Bool) : List Char → Bool
  | [] => true
  | c :: cs =>
    if c = ' ' then bufNonempty && spacesOk false cs
    else spacesOk true cs

/-- Units contributed by a chunk-scan result: the emitted units followed
by the flush of a non-empty final buffer. -/
def flushUnits (r : List Char × List (List Char)) : List (List Char) :=
  r.2 ++ (if r.1 = [] then [] else [r.1 ++ [' ']])

/-! ### Playback process singleton (`MPVProcessSingleton` in the source) -/

/-- A handle on the external playback process: its identity and the
result of polling it (`none` while the process is still running). -/
structure Proc where
  pid : Nat
  poll : Option Int
deriving DecidableEq, Repr

/-- The singleton state: the shared process handle, absent before the
first start. -/
structure MPVState where
  process : Option Proc
deriving DecidableEq, Repr

/-- Embeds the guard `self.process is None or self.process.poll() is not None`
of `start_process`. -/
def needsStart (p : Option Proc) : Bool :=
  match p with
  | none => true
  | some pr => pr.poll.isSome

/-- Embeds `MPVProcessSingleton.start_process`: raise when the playback
executable is missing; otherwise spawn a fresh process exactly when no
live process exists, else leave the handle untouched.  `fresh` stands
for the process a `subprocess.Popen` call would create. -/
def start_process (mpvInstalled : Bool) (fresh : Proc) (s : MPVState) : Except String MPVState :=
  if mpvInstalled = false then
    .error "mpv not found, necessary to stream audio."
  else if needsStart s.process then
    .ok ⟨some fresh⟩
  else
    .ok s

/-! ### Helper lemmas about the alignment scan -/

theorem findFrom_eq_none {char : String} {l : List String} :
    findFrom char l = none ↔ ∀ x ∈ l, x ≠ char := by
  induction l with
  | nil => simp [findFrom]
  | cons x xs ih =>
    by_cases hx : x = char
    · subst hx
      simp [findFrom]
    · simp [findFrom, ih, hx]

theorem findFrom_eq_some {char : String} {l : List String} {m : Nat}
    (h : findFrom char l = some m) : l.drop m = char :: l.drop (m + 1) := by
  induction l generalizing m with
  | nil => simp [findFrom] at h
  | cons x xs ih =>
    by_cases hx : x = char
    · subst hx
      simp [findFrom] at h
      subst h
      simp
    · simp only [findFrom, if_neg hx, Option.map_eq_some'] at h
      obtain ⟨m2, hm2, rfl⟩ := h
      simpa using ih hm2

theorem drop_succ_of_drop {α : Type} {l : List α} {j : Nat} {x : α} {t : List α}
    (h : l.drop j = x :: t) : l.drop (j + 1) = t := by
  have h1 : List.drop 1 (List.drop j l) = t := by
    rw [h]
    rfl
  rwa [List.drop_drop] at h1

theorem lt_length_of_drop_cons {α : Type} {l : List α} {j : Nat} {x : α} {t : List α}
    (h : l.drop j = x :: t) : j < l.length := by
  by_contra hc
  push_neg at hc
  rw [List.drop_eq_nil_iff.mpr hc] at h
  cases h

/-- The alignment scan only examines the confirmed list from the cursor
on: two runs whose confirmed suffixes agree are equal. -/
theorem alignLoop_drop_congr (orig : List String) :
    ∀ (rest : List String) (recv recv' : List String) (i j j' : Nat),
      recv.drop j = recv'.drop j' →
      alignLoop orig recv rest i j = alignLoop orig recv' rest i j'
  | [], _, _, _, _, _, _ => rfl
  | char :: rest, recv, recv', i, j, j', h => by
    by_cases hnl : char = "\n"
    · subst hnl
      simp only [alignLoop, if_pos rfl]
      exact alignLoop_drop_congr orig rest recv recv' (i + 1) j j' h
    · have hnil : (recv.drop j = []) ↔ (recv'.drop j' = []) := by rw [h]
      simp only [List.drop_eq_nil_iff] at hnil
      by_cases hj : j < recv.length
      · have hj' : j' < recv'.length := by omega
        simp only [alignLoop, if_neg hnl, if_pos hj, if_pos hj', findIdxFrom, h]
        cases hf : findFrom char (recv'.drop j') with
        | none => simp
        | some m =>
          simp only []
          have hdrop2 : recv.drop (j + m + 1) = recv'.drop (j' + m + 1) := by
            have h2 : (recv.drop j).drop (m + 1) = (recv'.drop j').drop (m + 1) := by rw [h]
            rwa [List.drop_drop, List.drop_drop, ← Nat.add_assoc, ← Nat.add_assoc] at h2
          by_cases hm : m = 0
          · subst hm
            simp only [Nat.add_zero, if_pos rfl]
            exact alignLoop_drop_congr orig rest recv recv' (i + 1) (j + 1) (j' + 1)
              (by simpa using hdrop2)
          · have hkj : ¬(j + m = j) := by omega
            have hkj' : ¬(j' + m = j') := by omega
            simp only [if_neg hkj, if_neg hkj', Nat.add_sub_cancel_left]
            by_cases htol : m ≤ displacement_tolerance
            · simp only [if_pos htol]
              exact alignLoop_drop_congr orig rest recv recv' (i + 1) (j + m + 1)
                (j' + m + 1) hdrop2
            · simp only [if_neg htol]
      · have hj' : ¬ j' < recv'.length := by omega
        simp only [alignLoop, if_neg hnl, if_neg hj, if_neg hj']

/-- When the stripped confirmed suffix at the cursor is exactly the rest
of the (line-break-free) formatted sent list, the scan matches
everything and returns the empty list. -/
theorem alignLoop_all_matched (orig : List String) :
    ∀ (rest : List String) (recv : List String) (i j : Nat),
      recv.drop j = rest → (∀ c ∈ rest, c ≠ "\n") →
      alignLoop orig recv rest i j = .ok []
  | [], _, _, _, _, _ => rfl
  | char :: rest, recv, i, j, hdrop, hnl => by
    have hchar : char ≠ "\n" := hnl char (by simp)
    have hj : j < recv.length := lt_length_of_drop_cons hdrop
    have hfind : findIdxFrom recv char j = some j := by
      simp [findIdxFrom, hdrop, findFrom]
    simp only [alignLoop, if_neg hchar, if_pos hj, hfind, if_pos rfl]
    exact alignLoop_all_matched orig rest recv (i + 1) (j + 1)
      (drop_succ_of_drop hdrop) (fun c hc => hnl c (by simp [hc]))

/-- Every successful result of the alignment scan is a suffix of the
original sent list (the scan returns `orig.drop i` or `[]`). -/
theorem alignLoop_ok_suffix (orig recv : List String) :
    ∀ (rest : List String) (i j : Nat) (r : List String),
      alignLoop orig recv rest i j = .ok r → ∃ n, r = orig.drop n
  | [], _, _, r, h => by
    simp only [alignLoop] at h
    cases h
    exact ⟨orig.length, by simp⟩
  | char :: rest, i, j, r, h => by
    simp only [alignLoop] at h
    split at h
    · exact alignLoop_ok_suffix orig recv rest (i + 1) j r h
    · split at h
      · split at h
        · split at h
          · exact alignLoop_ok_suffix orig recv rest (i + 1) (j + 1) r h
          · split at h
            · exact alignLoop_ok_suffix orig recv rest (i + 1) _ r h
            · cases h
        · cases h
          exact ⟨i, rfl⟩
      · cases h
        exact ⟨i, rfl⟩

/-! ### Helper lemmas about the word chunker -/

/-- Shape of a produced TextUnit: a non-empty space-free word followed
by exactly one trailing space. -/
def isUnit (u : List Char) : Prop :=
  ∃ w, w ≠ [] ∧ (∀ c ∈ w, c ≠ ' ') ∧ u = w ++ [' ']

theorem chunkStep_append (ys : List Char) :
    ∀ (xs b : List Char),
      chunkStep b (xs ++ ys) =
        ((chunkStep (chunkStep b xs).1 ys).1,
          (chunkStep b xs).2 ++ (chunkStep (chunkStep b xs).1 ys).2)
  | [], b => by simp [chunkStep]
  | c :: xs, b => by
    have ih := chunkStep_append ys xs
    by_cases hc : c = ' ' <;> by_cases hb : b = [] <;>
      simp [chunkStep, hc, hb, ih]

theorem text_chunker_go_eq :
    ∀ (ts : List (List Char)) (b : List Char),
      text_chunker_go b ts = (flushUnits (chunkStep b ts.flatten)).map some ++ [none]
  | [], b => by
    by_cases hb : b = [] <;>
      simp [text_chunker_go, chunkStep, flushUnits, hb]
  | t :: ts, b => by
    have ih := text_chunker_go_eq ts (chunkStep b t).1
    simp only [text_chunker_go, ih, List.flatten_cons, chunkStep_append ts.flatten t b,
      flushUnits]
    simp [List.map_append, List.append_assoc]

theorem chunkStep_flatten :
    ∀ (cs b : List Char), spacesOk (!b.isEmpty) cs = true →
      (chunkStep b cs).2.flatten ++ (chunkStep b cs).1 = b ++ cs
  | [], b, _ => by simp [chunkStep]
  | c :: cs, b, h => by
    by_cases hc : c = ' '
    · subst hc
      rw [show spacesOk (!b.isEmpty) (' ' :: cs) = (!b.isEmpty && spacesOk false cs) from by
        simp [spacesOk], Bool.and_eq_true] at h
      have hb : b ≠ [] := by simpa using h.1
      have ih := chunkStep_flatten cs [] (by simpa using h.2)
      simp [chunkStep, hb, ih]
    · have h2 : spacesOk true cs = true := by
        rwa [show spacesOk (!b.isEmpty) (c :: cs) = spacesOk true cs from by
          simp [spacesOk, hc]] at h
      have hne : (!(b ++ [c]).isEmpty) = true := by simp
      have ih := chunkStep_flatten cs (b ++ [c]) (by rw [hne]; exact h2)
      simp [chunkStep, hc, ih]

theorem chunkStep_buffer_empty :
    ∀ (cs b : List Char), spacesOk (!b.isEmpty) cs = true →
      (chunkStep b cs).1 = [] →
      (b = [] ∧ cs = []) ∨ ∃ cs2, cs = cs2 ++ [' ']
  | [], b, _, hres => by
    left
    exact ⟨by simpa [chunkStep] using hres, rfl⟩
  | c :: cs, b, h, hres => by
    by_cases hc : c = ' '
    · subst hc
      rw [show spacesOk (!b.isEmpty) (' ' :: cs) = (!b.isEmpty && spacesOk false cs) from by
        simp [spacesOk], Bool.and_eq_true] at h
      have hb : b ≠ [] := by simpa using h.1
      have hres2 : (chunkStep [] cs).1 = [] := by
        simpa [chunkStep, hb] using hres
      rcases chunkStep_buffer_empty cs [] (by simpa using h.2) hres2 with ⟨_, hcs⟩ | ⟨cs2, hcs⟩
      · exact Or.inr ⟨[], by simp [hcs]⟩
      · exact Or.inr ⟨' ' :: cs2, by simp [hcs]⟩
    · have h2 : spacesOk true cs = true := by
        rwa [show spacesOk (!b.isEmpty) (c :: cs) = spacesOk true cs from by
          simp [spacesOk, hc]] at h
      have hne : (!(b ++ [c]).isEmpty) = true := by simp
      have hres2 : (chunkStep (b ++ [c]) cs).1 = [] := by
        simpa [chunkStep, hc] using hres
      rcases chunkStep_buffer_empty cs (b ++ [c]) (by rw [hne]; exact h2) hres2 with ⟨hb2, _⟩ | ⟨cs2, hcs⟩
      · simp at hb2
      · exact Or.inr ⟨c :: cs2, by simp [hcs]⟩

theorem chunkStep_units_shape :
    ∀ (cs b : List Char), (∀ c ∈ b, c ≠ ' ') →
      (∀ u ∈ (chunkStep b cs).2, isUnit u) ∧ (∀ c ∈ (chunkStep b cs).1, c ≠ ' ')
  | [], b, hb => by
    constructor
    · intro u hu
      simp [chunkStep] at hu
    · simpa [chunkStep] using hb
  | c :: cs, b, hb => by
    by_cases hc : c = ' '
    · subst hc
      by_cases hbe : b = []
      · subst hbe
        simpa [chunkStep] using chunkStep_units_shape cs [] (by simp)
      · have ih := chunkStep_units_shape cs [] (by simp)
        refine ⟨?_, by simpa [chunkStep, hbe] using ih.2⟩
        intro u hu
        simp only [chunkStep, if_pos rfl] at hu
        rw [if_pos hbe] at hu
        rcases List.mem_cons.mp hu with rfl | hu
        · exact ⟨b, hbe, hb, rfl⟩
        · exact ih.1 u hu
    · have hb2 : ∀ x ∈ b ++ [c], x ≠ ' ' := by
        intro x hx
        rcases List.mem_append.mp hx with hx | hx
        · exact hb x hx
        · simp only [List.mem_singleton] at hx
          subst hx
          exact hc
      simpa [chunkStep, hc] using chunkStep_units_shape cs (b ++ [c]) hb2

theorem stripOneTrailingSpace_concat (b : List Char) :
    stripOneTrailingSpace (b ++ [' ']) = b := by
  simp [stripOneTrailingSpace, List.getLast?_concat, List.dropLast_concat]

theorem joinStripLast_concat :
    ∀ (us : List (List Char)) (u : List Char),
      joinStripLast (us ++ [u]) = us.flatten ++ stripOneTrailingSpace u
  | [], u => by simp [joinStripLast]
  | [a], u => by simp [joinStripLast]
  | a :: b :: us, u => by
    have ih := joinStripLast_concat (b :: us) u
    simp only [List.cons_append] at ih ⊢
    simp only [joinStripLast, ih, List.flatten_cons, List.append_assoc]

theorem filterMap_id_map_some {α : Type} (us : List α) :
    (us.map some ++ [(none : Option α)]).filterMap id = us := by
  induction us with
  | nil => simp
  | cons a us ih => simp [ih]

theorem map_id_of_fixed {α : Type} {f : α → α} :
    ∀ {l : List α}, (∀ a ∈ l, f a = a) → l.map f = l
  | [], _ => rfl
  | a :: l, h => by
    rw [List.map_cons, h a (by simp), map_id_of_fixed (fun x hx => h x (by simp [hx]))]

/-! ### Claim theorems -/

/-- C1 (counterexample): on `sent = "Hello world "`, `confirmed = " Hello"`,
the code returns the suffix `" world "` (with its leading space), not the
characters of `"world "` as the claim states. -/
theorem C1_scenario_resume_counterexample :
    get_remaining_chars_to_send (toCharStrings "Hello world ") (toCharStrings " Hello")
      = .ok (toCharStrings " world ")
    ∧ toCharStrings " world " ≠ toCharStrings "world " := by
  refine ⟨rfl, ?_⟩
  decide

/-- C1 (amended): on `sent = "Hello world "`, `confirmed = " Hello"`, the
resume point is index 5 and the result is the characters of `" world "`,
the suffix of the original sent list from index 5. -/
theorem C1_scenario_resume_amended :
    get_remaining_chars_to_send (toCharStrings "Hello world ") (toCharStrings " Hello")
      = .ok (toCharStrings " world ")
    ∧ toCharStrings " world " = (toCharStrings "Hello world ").drop 5 := by
  exact ⟨rfl, rfl⟩

/-- C2 (counterexample): on `sent = "Hello world "`, `confirmed = " Hello world"`,
the code returns the one-element list `[" "]` (the unconfirmed trailing
space of sent), not the empty list as the claim states. -/
theorem C2_scenario_empty_counterexample :
    get_remaining_chars_to_send (toCharStrings "Hello world ") (toCharStrings " Hello world")
      = .ok [" "]
    ∧ ([" "] : List String) ≠ [] := by
  refine ⟨rfl, ?_⟩
  decide

/-- C2 (amended): on `sent = "Hello world "`, `confirmed = " Hello world"`,
the result is the suffix of sent from resume point 11, the single
trailing space. -/
theorem C2_scenario_empty_amended :
    get_remaining_chars_to_send (toCharStrings "Hello world ") (toCharStrings " Hello world")
      = .ok ((toCharStrings "Hello world ").drop 11)
    ∧ (toCharStrings "Hello world ").drop 11 = [" "] := by
  exact ⟨rfl, rfl⟩

/-- C3 (counterexample): `confirmed` minus its artifact equal to `sent`
does not suffice for an empty result: a typographic right quote in
`sent` is normalized to a plain apostrophe before comparison and then
fails to match itself in `confirmed`, so the whole of `sent` is
returned. -/
theorem C3_exact_match_counterexample :
    (([" ", "’"] : List String).drop 1 = ["’"])
    ∧ get_remaining_chars_to_send ["’"] [" ", "’"] ≠ .ok [] := by
  refine ⟨rfl, ?_⟩
  intro h
  have h2 : get_remaining_chars_to_send ["’"] [" ", "’"] = .ok ["’"] := rfl
  rw [h2] at h
  cases Except.ok.inj h

/-- C3 (amended): if `confirmed` after dropping its artifact element is
element-wise equal to `sent`, and every element of `sent` is fixed by
the normalization table and is not a line break, then
`get_remaining_chars_to_send` returns the empty list. -/
theorem C3_exact_match_amended (sent confirmed : List String)
    (hdrop : confirmed.drop 1 = sent)
    (hdec : ∀ c ∈ sent, custom_decode c = c)
    (hnl : ∀ c ∈ sent, c ≠ "\n") :
    get_remaining_chars_to_send sent confirmed = .ok [] := by
  show alignLoop sent (confirmed.drop 1) (sent.map custom_decode) 0 0 = .ok []
  rw [map_id_of_fixed hdec, hdrop]
  exact alignLoop_all_matched sent sent sent 0 0 (by simp) hnl

/-- C3 (witness): a concrete instance of the amended claim. -/
theorem C3_exact_match_witness :
    get_remaining_chars_to_send ["a", "b"] [" ", "a", "b"] = .ok [] :=
  C3_exact_match_amended ["a", "b"] [" ", "a", "b"] rfl (by decide) (by decide)

/-- C4: every successful result of `get_remaining_chars_to_send` is a
contiguous suffix of the unmodified input `sent`: it equals
`sent.drop n` for some resume point `n` (with `n = sent.length` in the
all-confirmed, empty case). -/
theorem C4_result_is_suffix (sent confirmed r : List String)
    (h : get_remaining_chars_to_send sent confirmed = .ok r) :
    (∃ n, r = sent.drop n) ∧ r.IsSuffix sent := by
  have h2 : alignLoop sent (confirmed.drop 1) (sent.map custom_decode) 0 0 = .ok r := h
  obtain ⟨n, rfl⟩ :=
    alignLoop_ok_suffix sent (confirmed.drop 1) (sent.map custom_decode) 0 0 r h2
  exact ⟨⟨n, rfl⟩, List.drop_suffix n sent⟩

/-- C4 (witness): a concrete instance with a non-empty unreceived
suffix. -/
theorem C4_result_is_suffix_witness :
    (∃ n, (["a"] : List String) = (["a"] : List String).drop n)
    ∧ (["a"] : List String).IsSuffix ["a"] :=
  C4_result_is_suffix ["a"] [] ["a"] rfl

/-- C8: starting the playback process is idempotent: with the playback
executable installed and a live (still-running) process in the handle,
`start_process` returns the state unchanged: no second process is
launched. -/
theorem C8_start_process_idempotent (fresh pr : Proc) (h : pr.poll = none) :
    start_process true fresh ⟨some pr⟩ = .ok ⟨some pr⟩ := by
  simp [start_process, needsStart, h]

/-- C8 (witness): a concrete live process is left unchanged. -/
theorem C8_start_process_idempotent_witness :
    start_process true ⟨1, none⟩ ⟨some ⟨0, none⟩⟩ = .ok ⟨some ⟨0, none⟩⟩ :=
  C8_start_process_idempotent ⟨1, none⟩ ⟨0, none⟩ rfl

/-- C5: when the current sent character is next found in confirmed at
most `displacement_tolerance` positions past the cursor `j`, the scan
accepts it and continues exactly as if the skipped confirmed characters
were absent and the character sat at `j` (so the final resume point is
unchanged relative to the exact-position case); when it is next found
beyond the tolerance, the scan raises the alignment failure instead of
returning a result. -/
theorem C5_tolerance_behavior
    (orig recv rest : List String) (char : String) (i j k : Nat)
    (hnl : char ≠ "\n") (hj : j < recv.length)
    (hfind : findIdxFrom recv char j = some k) :
    (k - j ≤ displacement_tolerance →
       alignLoop orig recv (char :: rest) i j = alignLoop orig recv rest (i + 1) (k + 1)
       ∧ alignLoop orig recv (char :: rest) i j
           = alignLoop orig (recv.take j ++ recv.drop k) (char :: rest) i j)
    ∧ (displacement_tolerance < k - j →
       alignLoop orig recv (char :: rest) i j = Except.error alignment_failure_msg) := by
  unfold findIdxFrom at hfind
  cases hf : findFrom char (recv.drop j) with
  | none =>
    rw [hf] at hfind
    cases hfind
  | some m =>
    rw [hf] at hfind
    have hk : k = j + m := (Option.some.inj hfind).symm
    subst hk
    have hdk : recv.drop (j + m) = char :: recv.drop (j + m + 1) := by
      have h1 := findFrom_eq_some hf
      rw [List.drop_drop, List.drop_drop] at h1
      rwa [← Nat.add_assoc] at h1
    constructor
    · intro htol
      rw [Nat.add_sub_cancel_left] at htol
      have hstep : alignLoop orig recv (char :: rest) i j
          = alignLoop orig recv rest (i + 1) (j + m + 1) := by
        by_cases hm : m = 0
        · subst hm
          simp only [alignLoop, if_neg hnl, if_pos hj, findIdxFrom, hf, Nat.add_zero,
            if_pos rfl, if_true, eq_self_iff_true]
        · have hne : ¬(j + m = j) := by omega
          simp only [alignLoop, if_neg hnl, if_pos hj, findIdxFrom, hf, if_neg hne,
            Nat.add_sub_cancel_left, if_pos htol]
      have hlen : (recv.take j).length = j := by
        rw [List.length_take]
        exact min_eq_left (Nat.le_of_lt hj)
      have hdropj : (recv.take j ++ recv.drop (j + m)).drop j = recv.drop (j + m) := by
        calc (recv.take j ++ recv.drop (j + m)).drop j
            = (recv.take j ++ recv.drop (j + m)).drop (recv.take j).length := by rw [hlen]
          _ = recv.drop (j + m) := List.drop_left _ _
      have hlen' : j < (recv.take j ++ recv.drop (j + m)).length := by
        rw [List.length_append, hlen, hdk]
        simp
      have hfind' : findIdxFrom (recv.take j ++ recv.drop (j + m)) char j = some j := by
        unfold findIdxFrom
        rw [hdropj, hdk]
        simp [findFrom]
      have hdrop1 : (recv.take j ++ recv.drop (j + m)).drop (j + 1) = recv.drop (j + m + 1) := by
        have h2 : ((recv.take j ++ recv.drop (j + m)).drop j).drop 1 = recv.drop (j + m + 1) := by
          rw [hdropj, hdk]
          rfl
        rwa [List.drop_drop] at h2
      refine ⟨hstep, ?_⟩
      rw [hstep]
      have hrhs : alignLoop orig (recv.take j ++ recv.drop (j + m)) (char :: rest) i j
          = alignLoop orig (recv.take j ++ recv.drop (j + m)) rest (i + 1) (j + 1) := by
        simp only [alignLoop, if_neg hnl, if_pos hlen', hfind', if_pos rfl, if_true,
          eq_self_iff_true]
      rw [hrhs]
      exact alignLoop_drop_congr orig rest recv _ (i + 1) (j + m + 1) (j + 1) hdrop1.symm
    · intro htol
      rw [Nat.add_sub_cancel_left] at htol
      have hne : ¬(j + m = j) := by omega
      have hmt : ¬(m ≤ displacement_tolerance) := by omega
      simp only [alignLoop, if_neg hnl, if_pos hj, findIdxFrom, hf, if_neg hne,
        Nat.add_sub_cancel_left, if_neg hmt]

/-- C5 (witness): a shift of 1 is accepted and is equivalent to the
exact-position run on the shortened confirmed list; a shift of 3 raises
the alignment failure. -/
theorem C5_tolerance_behavior_witness :
    (alignLoop [] ["x", "a"] ["a"] 0 0 = alignLoop [] ["x", "a"] [] 1 2
      ∧ alignLoop [] ["x", "a"] ["a"] 0 0
          = alignLoop [] (List.take 0 ["x", "a"] ++ List.drop 1 ["x", "a"]) ["a"] 0 0)
    ∧ alignLoop [] ["x", "x", "x", "a"] ["a"] 0 0 = Except.error alignment_failure_msg := by
  constructor
  · exact (C5_tolerance_behavior [] ["x", "a"] [] "a" 0 0 1
      (by decide) (by decide) (by decide)).1 (by decide)
  · exact (C5_tolerance_behavior [] ["x", "x", "x", "a"] [] "a" 0 0 3
      (by decide) (by decide) (by decide)).2 (by decide)

/-- C6: line-break characters of the (formatted) sent list are skipped
without consuming the confirmed cursor `j`: a run of line breaks ahead
of the scan only advances the sent index, and a sent list consisting
solely of line breaks is reported fully confirmed. -/
theorem C6_linebreak_never_consumes_cursor :
    (∀ (orig recv rest : List String) (i j n : Nat),
       alignLoop orig recv (List.replicate n "\n" ++ rest) i j
         = alignLoop orig recv rest (i + n) j)
    ∧ ∀ (n : Nat) (confirmed : List String),
        get_remaining_chars_to_send (List.replicate n "\n") confirmed = .ok [] := by
  have key : ∀ (n : Nat) (orig recv rest : List String) (i j : Nat),
      alignLoop orig recv (List.replicate n "\n" ++ rest) i j
        = alignLoop orig recv rest (i + n) j := by
    intro n
    induction n with
    | zero =>
      intro orig recv rest i j
      simp
    | succ n ih =>
      intro orig recv rest i j
      rw [List.replicate_succ, List.cons_append]
      have h1 : alignLoop orig recv ("\n" :: (List.replicate n "\n" ++ rest)) i j
          = alignLoop orig recv (List.replicate n "\n" ++ rest) (i + 1) j := by
        simp [alignLoop]
      rw [h1, ih]
      congr 1
      omega
  refine ⟨fun orig recv rest i j n => key n orig recv rest i j, fun n confirmed => ?_⟩
  show alignLoop (List.replicate n "\n") (confirmed.drop 1)
      ((List.replicate n "\n").map custom_decode) 0 0 = .ok []
  rw [List.map_replicate, show custom_decode "\n" = "\n" from rfl]
  have h2 := key n (List.replicate n "\n") (confirmed.drop 1) [] 0 0
  simpa [alignLoop] using h2

/-- C7 (counterexample): a fragment stream whose concatenation ends in a
space is not reconstructed: the chunker emits `"a "` for input `"a "`,
and stripping the trailing space of the last unit loses the input's own
final space. -/
theorem C7_roundtrip_counterexample :
    joinStripLast ((text_chunker [['a', ' ']]).filterMap id)
      ≠ ([['a', ' ']] : List (List Char)).flatten := by
  decide

/-- C7 (amended): for every fragment sequence whose concatenation has no
leading space, no two adjacent spaces, and no trailing space,
concatenating the emitted TextUnits with one trailing space stripped
from the last reconstructs the concatenated fragment stream in order. -/
theorem C7_roundtrip_amended (fragments : List (List Char))
    (hok : spacesOk false fragments.flatten = true)
    (hlast : fragments.flatten.getLast? ≠ some ' ') :
    joinStripLast ((text_chunker fragments).filterMap id) = fragments.flatten := by
  have hrepr : (text_chunker fragments).filterMap id
      = flushUnits (chunkStep [] fragments.flatten) := by
    rw [text_chunker, text_chunker_go_eq, filterMap_id_map_some]
  rw [hrepr]
  have hok2 : spacesOk (!([] : List Char).isEmpty) fragments.flatten = true := by
    simpa using hok
  by_cases hnil : fragments.flatten = []
  · rw [hnil]
    rfl
  · have hbuf : (chunkStep [] fragments.flatten).1 ≠ [] := by
      intro hempty
      rcases chunkStep_buffer_empty fragments.flatten [] hok2 hempty with ⟨_, h2⟩ | ⟨cs2, h2⟩
      · exact hnil h2
      · exact hlast (by rw [h2]; exact List.getLast?_concat _)
    have hflush : flushUnits (chunkStep [] fragments.flatten)
        = (chunkStep [] fragments.flatten).2 ++ [(chunkStep [] fragments.flatten).1 ++ [' ']] := by
      simp [flushUnits, hbuf]
    rw [hflush, joinStripLast_concat, stripOneTrailingSpace_concat]
    simpa using chunkStep_flatten fragments.flatten [] hok2

/-- C7 (witness): a concrete well-formed fragment stream is
reconstructed. -/
theorem C7_roundtrip_witness :
    joinStripLast ((text_chunker [['a', 'b', ' ', 'c']]).filterMap id)
      = ([['a', 'b', ' ', 'c']] : List (List Char)).flatten :=
  C7_roundtrip_amended [['a', 'b', ' ', 'c']] (by decide) (by decide)

/-- C9: the chunker's output queue is a list of genuine TextUnits (each
a non-empty space-free word plus exactly one trailing space) followed by
the `none` sentinel as the last item emitted, for every fragment
sequence. -/
theorem C9_units_shape_and_sentinel (fragments : List (List Char)) :
    ∃ us : List (List Char), text_chunker fragments = us.map some ++ [none]
      ∧ ∀ u ∈ us, isUnit u := by
  refine ⟨flushUnits (chunkStep [] fragments.flatten), ?_, ?_⟩
  · rw [text_chunker, text_chunker_go_eq]
  · intro u hu
    have hshape := chunkStep_units_shape fragments.flatten [] (by simp)
    rw [flushUnits] at hu
    rcases List.mem_append.mp hu with hu | hu
    · exact hshape.1 u hu
    · by_cases hb : (chunkStep [] fragments.flatten).1 = []
      · rw [if_pos hb] at hu
        cases hu
      · rw [if_neg hb] at hu
        have hu2 := List.mem_singleton.mp hu
        subst hu2
        exact ⟨(chunkStep [] fragments.flatten).1, hb, hshape.2, rfl⟩

/-- C10: the normalization table maps the pound, euro and ellipsis signs
of sent to the multi-character strings `"GBP"`, `"EUR"`, `"..."`; such
an element is never equal to any one-character string, and when the
scan reaches it with the cursor in bounds and it does not occur in the
remaining confirmed elements, the result is the suffix of the original
sent list starting at that element. -/
theorem C10_multichar_normalization :
    (custom_decode "£" = "GBP" ∧ custom_decode "€" = "EUR" ∧ custom_decode "…" = "...")
    ∧ (∀ s ∈ (["GBP", "EUR", "..."] : List String), ∀ c : Char, s ≠ String.mk [c])
    ∧ (∀ (sent recv rest : List String) (c : String) (i j : Nat),
         c ∈ (["£", "€", "…"] : List String) → j < recv.length →
         (∀ x ∈ recv.drop j, x ≠ custom_decode c) →
         alignLoop sent recv (custom_decode c :: rest) i j = .ok (sent.drop i))
    ∧ get_remaining_chars_to_send ["H", "£", "i"] [" ", "H", "z", "z"] = .ok ["£", "i"] := by
  refine ⟨⟨rfl, rfl, rfl⟩, ?_, ?_, rfl⟩
  · intro s hs c h
    have hlen : s.length = (String.mk [c]).length := congrArg String.length h
    rw [show (String.mk [c]).length = 1 from rfl] at hlen
    fin_cases hs <;> exact absurd hlen (by decide)
  · intro sent recv rest c i j hc hj hnot
    have hnl : custom_decode c ≠ "\n" := by
      fin_cases hc <;> decide
    have hfind : findIdxFrom recv (custom_decode c) j = none := by
      simp only [findIdxFrom, findFrom_eq_none.mpr hnot]
    simp only [alignLoop, if_neg hnl, if_pos hj, hfind]

/-- C10 (witness): a concrete pound sign unmatched in the confirmed
suffix becomes the resume point. -/
theorem C10_multichar_normalization_witness :
    alignLoop ["£"] ["z"] (custom_decode "£" :: []) 0 0 = .ok (List.drop 0 ["£"]) :=
  C10_multichar_normalization.2.2.1 ["£"] ["z"] [] "£" 0 0 (by decide) (by decide) (by decide)

end TTS

